import Mathlib

/-!
Verification of the bitfield crate: a shallow embedding of the bit-level
codec in src/bitfield/src/lib.rs (private::Num::view / view_mut, the four
private::Load and private::Store impls and the Specifier::get/set dispatch),
of the layout computation generated by src/bitfield/impl/src/imp.rs
(gen_standard), and of the enum Specifier derivation in
src/bitfield/impl/src/derive.rs (BitsDetector, detectbits, gen).

Bytes are modelled as natural numbers; wherever the Rust code truncates to a
machine width (casts, shifts on uN), an explicit `% 2 ^ w` appears.  A Rust
panic is modelled as an `Except` error or an `Option.none`.
-/

/-- Little-endian byte list read as a natural number (models `uN::from_le_bytes`;
trailing zero padding bytes do not change the value). -/
def fromLe : List Nat → Nat
  | [] => 0
  | b :: bs => b + 256 * fromLe bs

/-- First `n` little-endian bytes of a natural number (models `uN::to_le_bytes`
for an `n`-byte integer type). -/
def toLeBytes : Nat → Nat → List Nat
  | 0, _ => []
  | n + 1, x => x % 256 :: toLeBytes n (x / 256)

/-- Models `fn split(data)` of src/bitfield/src/lib.rs: the first byte, the
interior bytes and the last byte of a slice; the source panics when the slice
has fewer than two bytes, modelled by `none`. -/
def splitBytes : List Nat → Option (Nat × List Nat × Nat)
  | [] => none
  | [_] => none
  | h :: t :: rest => some (h, (t :: rest).dropLast, (t :: rest).getLastD 0)

/-- Bitwise complement of one byte (Rust `!m` on a `u8`). -/
def not8 (m : Nat) : Nat := m ^^^ 255

/-- Writing the merged byte window `w` back at byte index `b`; models the
mutations performed through the `view_mut` slice. -/
def setWindow (data : List Nat) (b : Nat) (w : List Nat) : List Nat :=
  data.take b ++ w ++ data.drop (b + w.length)

/-- Bit `i` of a byte buffer: bit `i % 8` of byte `i / 8`, bit 0 being the
least-significant bit of byte 0 (the crate's numbering convention). -/
def bufBit (data : List Nat) (i : Nat) : Bool :=
  Nat.testBit (data.getD (i / 8) 0) (i % 8)

/-- The panics of the codec, named after the conditions that raise them:
width-band check, bounds check, and the `unreachable!()` match arms. -/
inductive CodecError where
  | invalidWidth
  | outOfBounds
  | unreachableState
deriving DecidableEq

/-- The four container types u8/u16/u32/u64 implementing private::Num. -/
inductive Container where
  | c8
  | c16
  | c32
  | c64
deriving DecidableEq

/-- Bit count of a container (`Self::BITS`). -/
def cbits : Container → Nat
  | .c8 => 8
  | .c16 => 16
  | .c32 => 32
  | .c64 => 64

/-- Lower end of `BITS_RANGE` for each container. -/
def bandLo : Container → Nat
  | .c8 => 1
  | .c16 => 9
  | .c32 => 17
  | .c64 => 33

/-- Upper end of `BITS_RANGE` for each container (always `Self::BITS`). -/
def bandHi : Container → Nat
  | .c8 => 8
  | .c16 => 16
  | .c32 => 32
  | .c64 => 64

/-- Models private::Num::view and view_mut: panic with the width error when
`len` is outside `BITS_RANGE`, else compute `begin = off >> 3` and the
inclusive `end = (off + len - 1) >> 3`, panic with the bounds error when the
buffer is empty or `end + 1 > data.len()`, and otherwise return
`(begin, end, data[begin ..= end])`. -/
def view (c : Container) (off len : Nat) (data : List Nat) :
    Except CodecError (Nat × Nat × List Nat) :=
  if ¬ (bandLo c ≤ len ∧ len ≤ bandHi c) then .error .invalidWidth
  else
    let b := off >>> 3
    let e := (off + len - 1) >>> 3
    if data.isEmpty ∨ data.length < e + 1 then .error .outOfBounds
    else .ok (b, e, (data.drop b).take (e + 1 - b))

/-- The multi-byte store arm shared by all four Store impls: the masked value
is shifted by `off % 8` into a little-endian integer of `bw` bytes, the first
`window.length` bytes are split into head, interior and tail, the head byte
keeps the old bits below `off % 8` via `!(0xFF << (off % 8))`, the tail byte
keeps the old bits selected by `0xFF << ((off + len) % 8)`, and the interior
is copied verbatim. -/
def storeWide (bw off len : Nat) (window : List Nat) (v : Nat) :
    Option (List Nat) :=
  let mh := (255 <<< (off % 8)) % 256
  let mt := (255 <<< ((off + len) % 8)) % 256
  let buf := (toLeBytes bw ((v <<< (off % 8)) % 2 ^ (8 * bw))).take window.length
  match splitBytes buf, splitBytes window with
  | some (bh, bm, bt), some (h, _, t) =>
      some (((h &&& not8 mh) ||| bh) :: (bm ++ [(t &&& mt) ||| bt]))
  | _, _ => none

/-- Window merge of `impl private::Store for u8`: a one-byte window uses the
in-place merge `b & !(mask << off) | (val << off)`; a two-byte window goes
through the head/tail merge with the value widened to u16. -/
def storeBody8 (off len : Nat) (window : List Nat) (val : Nat) :
    Option (List Nat) :=
  let mask := 255 >>> (8 - len)
  let v := val &&& mask
  if window.length = 1 then
    let r := off % 8
    let m := (mask <<< r) % 256
    some [(window.getD 0 0 &&& not8 m) ||| ((v <<< r) % 256)]
  else if window.length = 2 then storeWide 2 off len window v
  else none

/-- Window merge of `impl private::Store for u16`: two bytes widen to u16,
three bytes widen to u32. -/
def storeBody16 (off len : Nat) (window : List Nat) (val : Nat) :
    Option (List Nat) :=
  let mask := 65535 >>> (16 - len)
  let v := val &&& mask
  if window.length = 2 then storeWide 2 off len window v
  else if window.length = 3 then storeWide 4 off len window v
  else none

/-- Window merge of `impl private::Store for u32`: three or four bytes widen
to u32, five bytes widen to u64. -/
def storeBody32 (off len : Nat) (window : List Nat) (val : Nat) :
    Option (List Nat) :=
  let mask := 4294967295 >>> (32 - len)
  let v := val &&& mask
  if window.length = 3 ∨ window.length = 4 then storeWide 4 off len window v
  else if window.length = 5 then storeWide 8 off len window v
  else none

/-- Window merge of `impl private::Store for u64`: five to eight bytes widen
to u64, nine bytes widen to u128. -/
def storeBody64 (off len : Nat) (window : List Nat) (val : Nat) :
    Option (List Nat) :=
  let mask := 18446744073709551615 >>> (64 - len)
  let v := val &&& mask
  if 5 ≤ window.length ∧ window.length ≤ 8 then storeWide 8 off len window v
  else if window.length = 9 then storeWide 16 off len window v
  else none

/-- Dispatch of the four Store window merges. -/
def storeBodyC : Container → Nat → Nat → List Nat → Nat → Option (List Nat)
  | .c8 => storeBody8
  | .c16 => storeBody16
  | .c32 => storeBody32
  | .c64 => storeBody64

/-- Models `private::Store::store` for container `c`: validate and slice via
`view_mut`, merge the window, and write it back; a falling-through match arm
is the source's `unreachable!()`. -/
def storeC (c : Container) (off len : Nat) (data : List Nat) (val : Nat) :
    Except CodecError (List Nat) :=
  match view c off len data with
  | .error e => .error e
  | .ok (b, _, window) =>
    match storeBodyC c off len window val with
    | some w => .ok (setWindow data b w)
    | none => .error .unreachableState

/-- Window read of `impl private::Load for u8`: one byte reads directly, two
bytes read through u16 and truncate the shifted value back to u8. -/
def loadBody8 (off len : Nat) (window : List Nat) : Option Nat :=
  let mask := 255 >>> (8 - len)
  let r := off % 8
  if window.length = 1 then some ((fromLe window >>> r) &&& mask)
  else if window.length = 2 then some (((fromLe window >>> r) % 256) &&& mask)
  else none

/-- Window read of `impl private::Load for u16`. -/
def loadBody16 (off len : Nat) (window : List Nat) : Option Nat :=
  let mask := 65535 >>> (16 - len)
  let r := off % 8
  if window.length = 2 then some ((fromLe window >>> r) &&& mask)
  else if window.length = 3 then some (((fromLe window >>> r) % 65536) &&& mask)
  else none

/-- Window read of `impl private::Load for u32`. -/
def loadBody32 (off len : Nat) (window : List Nat) : Option Nat :=
  let mask := 4294967295 >>> (32 - len)
  let r := off % 8
  if window.length = 3 ∨ window.length = 4 then
    some ((fromLe window >>> r) &&& mask)
  else if window.length = 5 then
    some (((fromLe window >>> r) % 4294967296) &&& mask)
  else none

/-- Window read of `impl private::Load for u64`. -/
def loadBody64 (off len : Nat) (window : List Nat) : Option Nat :=
  let mask := 18446744073709551615 >>> (64 - len)
  let r := off % 8
  if 5 ≤ window.length ∧ window.length ≤ 8 then
    some ((fromLe window >>> r) &&& mask)
  else if window.length = 9 then
    some (((fromLe window >>> r) % 18446744073709551616) &&& mask)
  else none

/-- Dispatch of the four Load window reads. -/
def loadBodyC : Container → Nat → Nat → List Nat → Option Nat
  | .c8 => loadBody8
  | .c16 => loadBody16
  | .c32 => loadBody32
  | .c64 => loadBody64

/-- Models `private::Load::load` for container `c`. -/
def loadC (c : Container) (off len : Nat) (data : List Nat) :
    Except CodecError Nat :=
  match view c off len data with
  | .error e => .error e
  | .ok (_, _, window) =>
    match loadBodyC c off len window with
    | some v => .ok v
    | none => .error .unreachableState

/-- Models `Specifier::set`: dispatch on `BITS` to the container whose band
contains it (`0..=8`, `9..=16`, `17..=32`, `33..=64`). -/
def specStore (bits off : Nat) (data : List Nat) (val : Nat) :
    Except CodecError (List Nat) :=
  if bits ≤ 8 then storeC .c8 off bits data val
  else if bits ≤ 16 then storeC .c16 off bits data val
  else if bits ≤ 32 then storeC .c32 off bits data val
  else if bits ≤ 64 then storeC .c64 off bits data val
  else .error .unreachableState

/-- Models `Specifier::get`: same dispatch as `specStore`. -/
def specLoad (bits off : Nat) (data : List Nat) : Except CodecError Nat :=
  if bits ≤ 8 then loadC .c8 off bits data
  else if bits ≤ 16 then loadC .c16 off bits data
  else if bits ≤ 32 then loadC .c32 off bits data
  else if bits ≤ 64 then loadC .c64 off bits data
  else .error .unreachableState

/-- Success test for an `Except` result. -/
def isOkE {ε α : Type} : Except ε α → Bool
  | .ok _ => true
  | .error _ => false

/-- Models the prefix construction of gen_standard in
src/bitfield/impl/src/imp.rs: `offsets.push(last.clone()); last.push(ty)` —
element `i` is the list of the first `i` field types. -/
def offsetLists : List Nat → List (List Nat)
  | [] => []
  | w :: rest => [] :: (offsetLists rest).map (fun l => w :: l)

/-- The generated `OFFSET` table: entry `i` is `0 + Σ BITS` over the first `i`
fields. -/
def offsetTable (ws : List Nat) : List Nat := (offsetLists ws).map List.sum

/-- The generated `data` array length `(((Σ BITS) - 1) >> 3) + 1`. -/
def bitfieldDataLen (ws : List Nat) : Nat := ((ws.sum - 1) >>> 3) + 1

/-- The const parameter of the generated
`impl checks::TotalSizeModEight<{(0 + BITS + ...) % 8}>`. -/
def totalSizeModEightParam (ws : List Nat) : Nat := ws.sum % 8

/-- Modelled from the spec: the trait gate is type-level — the generated
`impl TotalSizeIsMultipleOfEightBits` requires `TotalSizeModEight<0>`, and the
only provided instance carries `totalSizeModEightParam`, so the type is
constructible exactly when that parameter is `0`. -/
def layoutAccepted (ws : List Nat) : Bool := totalSizeModEightParam ws == 0

/-- Discriminant expressions of enum variants, as far as the derive inspects
them: base-10 integer literals and compound expressions (the shift form is
representative; only the literals inside are ever visited). -/
inductive DExpr where
  | lit : Nat → DExpr
  | shl : DExpr → DExpr → DExpr
deriving DecidableEq

/-- Base-10 integer literals syntactically contained in an expression, in
visit order (syn::visit::Visit, as driven by BitsDetector). -/
def litsOf : DExpr → List Nat
  | .lit n => [n]
  | .shl a b => litsOf a ++ litsOf b

/-- Value of a discriminant expression (what the generated match arms use). -/
def evalD : DExpr → Nat
  | .lit n => n
  | .shl a b => evalD a <<< evalD b

/-- An enum variant as the derive sees it: an optional discriminant
expression; the variant's identity is its position in the variant list. -/
structure RVariant where
  disc : Option DExpr
deriving DecidableEq

/-- Literals visited inside one variant (its discriminant, when present). -/
def variantLits (v : RVariant) : List Nat :=
  match v.disc with
  | some e => litsOf e
  | none => []

/-- All literals visited over the whole variant list, in order. -/
def allLits : List RVariant → List Nat
  | [] => []
  | v :: rest => variantLits v ++ allLits rest

/-- The running state of BitsDetector: `none` until the first literal, then
`Some (v.max v1)` on each further literal. -/
def foldMax : Option Nat → List Nat → Option Nat
  | st, [] => st
  | none, n :: rest => foldMax (some n) rest
  | some m, n :: rest => foldMax (some (Nat.max n m)) rest

/-- The `while max != 0 { bits += 1; max >>= 1 }` loop of detectbits, with a
structural fuel argument (the loop runs at most `n` times since `max` at
least halves on every iteration). -/
def bitlenAux : Nat → Nat → Nat
  | 0, _ => 0
  | fuel + 1, n => if n = 0 then 0 else bitlenAux fuel (n / 2) + 1

/-- Number of loop iterations of detectbits on `n`: the binary length. -/
def bitlen (n : Nat) : Nat := bitlenAux n n

/-- The errors of src/bitfield/impl/src/derive.rs, named after the messages
raised there. -/
inductive DeriveError where
  | litOverflow
  | noLiteral
  | needsDiscriminant
  | unsupportedBits
deriving DecidableEq

/-- Models `fn detectbits`: parse errors (literals not fitting u64) first,
then `no literal specified.` when no literal was seen, otherwise the bit
count of the maximum literal, at least 1. -/
def detectbits (vs : List RVariant) : Except DeriveError Nat :=
  if (allLits vs).any (fun n => 2 ^ 64 ≤ n) then .error .litOverflow
  else
    match foldMax none (allLits vs) with
    | none => .error .noLiteral
    | some m => .ok (Nat.max (bitlen m) 1)

/-- The derived Specifier: `BITS`, the generated `from` (variant index to raw
discriminant value) and the generated `to` (raw value to the first variant
whose discriminant matches; the fall-through `panic!` arm is `none`). -/
structure SpecifierImpl where
  bits : Nat
  encode : Nat → Option Nat
  decode : Nat → Option Nat

/-- The generated `to` match: test each variant's discriminant value in
declaration order. -/
def decodeFrom : List RVariant → Nat → Nat → Option Nat
  | [], _, _ => none
  | v :: rest, i, raw =>
    match v.disc with
    | some e => if evalD e = raw then some i else decodeFrom rest (i + 1) raw
    | none => decodeFrom rest (i + 1) raw

/-- Models `fn gen` of derive.rs on an enum: `VariantWrapper::from` rejects
any variant without a discriminant (`needs discriminant`), then `detectbits`
fixes `BITS`, `ty_for_bits` rejects more than 64 bits, and the emitted impl
gives the encode/decode tables. -/
def genDerive (vs : List RVariant) : Except DeriveError SpecifierImpl :=
  if vs.any (fun v => v.disc.isNone) then .error .needsDiscriminant
  else
    match detectbits vs with
    | .error e => .error e
    | .ok bits =>
      if bits ≤ 64 then
        .ok { bits := bits
            , encode := fun i => (vs[i]?).bind (fun v => v.disc.map evalD)
            , decode := fun raw => decodeFrom vs 0 raw }
      else .error .unsupportedBits

/-! Helper lemmas: bit arithmetic. -/

lemma and_two_pow_sub_one (x n : Nat) : x &&& (2 ^ n - 1) = x % 2 ^ n := by
  apply Nat.eq_of_testBit_eq
  intro i
  simp [Nat.testBit_mod_two_pow, Bool.and_comm]

lemma mask_shiftRight {c len : Nat} (h : len ≤ c) :
    (2 ^ c - 1) >>> (c - len) = 2 ^ len - 1 := by
  apply Nat.eq_of_testBit_eq
  intro i
  simp [Nat.testBit_shiftRight, decide_eq_decide]
  omega

lemma mask8_eq {len : Nat} (h : len ≤ 8) : (255 : Nat) >>> (8 - len) = 2 ^ len - 1 := by
  have h255 : (255 : Nat) = 2 ^ 8 - 1 := by norm_num
  rw [h255, mask_shiftRight h]

lemma mask16_eq {len : Nat} (h : len ≤ 16) :
    (65535 : Nat) >>> (16 - len) = 2 ^ len - 1 := by
  have hn : (65535 : Nat) = 2 ^ 16 - 1 := by norm_num
  rw [hn, mask_shiftRight h]

lemma mask32_eq {len : Nat} (h : len ≤ 32) :
    (4294967295 : Nat) >>> (32 - len) = 2 ^ len - 1 := by
  have hn : (4294967295 : Nat) = 2 ^ 32 - 1 := by norm_num
  rw [hn, mask_shiftRight h]

lemma mask64_eq {len : Nat} (h : len ≤ 64) :
    (18446744073709551615 : Nat) >>> (64 - len) = 2 ^ len - 1 := by
  have hn : (18446744073709551615 : Nat) = 2 ^ 64 - 1 := by norm_num
  rw [hn, mask_shiftRight h]

lemma masked_lt (x n : Nat) : x &&& (2 ^ n - 1) < 2 ^ n := by
  rw [and_two_pow_sub_one]
  exact Nat.mod_lt _ (Nat.pos_pow_of_pos n (by norm_num))

lemma shiftRight3_eq (x : Nat) : x >>> 3 = x / 8 := by
  rw [Nat.shiftRight_eq_div_pow]

/-- Bit `j` of the `k`-th little-endian byte of `x`. -/
lemma byte_testBit {j : Nat} (x k : Nat) (hj : j < 8) :
    (x / 2 ^ (8 * k) % 256).testBit j = x.testBit (8 * k + j) := by
  have h256 : (256 : Nat) = 2 ^ 8 := by norm_num
  rw [h256, Nat.testBit_mod_two_pow, ← Nat.shiftRight_eq_div_pow,
    Nat.testBit_shiftRight]
  simp [hj]

/-- Bits of the one-byte head keep mask `0xFF << r` (reduced to u8). -/
lemma mh_testBit {j : Nat} (r : Nat) (hj : j < 8) :
    ((255 <<< r) % 256).testBit j = decide (r ≤ j) := by
  have h256 : (256 : Nat) = 2 ^ 8 := by norm_num
  have h255 : (255 : Nat) = 2 ^ 8 - 1 := by norm_num
  have hjr : j - r < 8 := by omega
  rw [h256, Nat.testBit_mod_two_pow, Nat.testBit_shiftLeft, h255,
    Nat.testBit_two_pow_sub_one]
  simp [hj, hjr]

lemma not8_testBit {j : Nat} (m : Nat) (hj : j < 8) :
    (not8 m).testBit j = ! m.testBit j := by
  have h2 : Nat.testBit 255 j = true := by
    have h255 : (255 : Nat) = 2 ^ 8 - 1 := by norm_num
    rw [h255, Nat.testBit_two_pow_sub_one]
    simp [hj]
  rw [not8, Nat.testBit_xor, h2]
  simp

/-! Helper lemmas: lists and byte windows. -/

lemma toLeBytes_length (n x : Nat) : (toLeBytes n x).length = n := by
  induction n generalizing x with
  | zero => rfl
  | succ n ih => simp [toLeBytes, ih]

lemma toLeBytes_getElem? {n k : Nat} (x : Nat) (h : k < n) :
    (toLeBytes n x)[k]? = some (x / 2 ^ (8 * k) % 256) := by
  induction n generalizing x k with
  | zero => omega
  | succ n ih =>
    cases k with
    | zero => simp [toLeBytes]
    | succ k =>
      have hk : k < n := by omega
      rw [toLeBytes, List.getElem?_cons_succ, ih (x := x / 256) hk,
        Nat.div_div_eq_div_mul]
      congr 2
      rw [show 8 * (k + 1) = 8 * k + 8 by ring, pow_add]
      norm_num
      ring_nf

lemma getLastD_eq_getD (l : List Nat) (d : Nat) :
    l.getLastD d = l.getD (l.length - 1) d := by
  rw [List.getLastD_eq_getLast?, List.getLast?_eq_getElem?,
    List.getD_eq_getElem?_getD]

lemma splitBytes_eq_some (l : List Nat) (h : 2 ≤ l.length) :
    splitBytes l = some (l.getD 0 0, l.tail.dropLast, l.getD (l.length - 1) 0) := by
  match l with
  | a :: b :: rest =>
    rw [splitBytes, getLastD_eq_getD]
    simp

lemma setWindow_length {data w : List Nat} {b : Nat}
    (h : b + w.length ≤ data.length) :
    (setWindow data b w).length = data.length := by
  rw [setWindow]
  simp
  omega

lemma setWindow_getElem?_lo {data w : List Nat} {b k : Nat}
    (hb : b ≤ data.length) (hk : k < b) :
    (setWindow data b w)[k]? = data[k]? := by
  rw [setWindow, List.getElem?_append_left (by simp; omega),
    List.getElem?_append_left (by simp; omega)]
  exact List.getElem?_take_of_lt hk

lemma setWindow_getElem?_hi {data w : List Nat} {b k : Nat}
    (hb : b ≤ data.length) (hk : b + w.length ≤ k) :
    (setWindow data b w)[k]? = data[k]? := by
  have h1 : (List.take b data ++ w).length = b + w.length := by
    simp
    omega
  rw [setWindow, List.getElem?_append_right (by rw [h1]; omega), h1,
    List.getElem?_drop]
  congr 1
  omega

lemma setWindow_getElem?_mid {data w : List Nat} {b k : Nat}
    (hb : b ≤ data.length) (h1 : b ≤ k) (h2 : k < b + w.length) :
    (setWindow data b w)[k]? = w[k - b]? := by
  have ht : (List.take b data).length = b := by
    rw [List.length_take]
    omega
  rw [setWindow, List.getElem?_append_left (by simp; omega),
    List.getElem?_append_right (by rw [ht]; omega), ht]

/-! Helper lemmas: the view window. -/

lemma view_def (c : Container) (off len : Nat) (data : List Nat) :
    view c off len data =
      if ¬ (bandLo c ≤ len ∧ len ≤ bandHi c) then .error .invalidWidth
      else if data.isEmpty ∨ data.length < (off + len - 1) / 8 + 1 then
        .error .outOfBounds
      else .ok (off / 8, (off + len - 1) / 8,
        (data.drop (off / 8)).take ((off + len - 1) / 8 + 1 - off / 8)) := by
  unfold view
  simp only [shiftRight3_eq]

lemma view_ok_elim {c : Container} {off len : Nat} {data : List Nat}
    {b e : Nat} {win : List Nat}
    (h : view c off len data = .ok (b, e, win)) :
    bandLo c ≤ len ∧ len ≤ bandHi c ∧ b = off / 8 ∧ e = (off + len - 1) / 8 ∧
    e < data.length ∧ win = (data.drop b).take (e + 1 - b) := by
  rw [view_def] at h
  split at h
  · simp at h
  · split at h
    · simp at h
    · rename_i hband hbound
      push_neg at hband
      simp only [Except.ok.injEq, Prod.mk.injEq] at h
      obtain ⟨h1, h2, h3⟩ := h
      subst h1
      subst h2
      refine ⟨hband.1, hband.2, rfl, rfl, ?_, h3.symm⟩
      push_neg at hbound
      omega

lemma view_ok_intro (c : Container) (off len : Nat) (data : List Nat)
    (h1 : bandLo c ≤ len) (h2 : len ≤ bandHi c)
    (h3 : (off + len - 1) / 8 < data.length) :
    view c off len data = .ok (off / 8, (off + len - 1) / 8,
      (data.drop (off / 8)).take ((off + len - 1) / 8 + 1 - off / 8)) := by
  rw [view_def, if_neg (by push_neg; exact ⟨h1, h2⟩), if_neg]
  intro hcon
  rcases hcon with hE | hL
  · have := List.isEmpty_iff.mp hE
    subst this
    simp at h3
  · omega

lemma view_invalidWidth_iff (c : Container) (off len : Nat) (data : List Nat) :
    view c off len data = .error .invalidWidth
      ↔ ¬ (bandLo c ≤ len ∧ len ≤ bandHi c) := by
  rw [view_def]
  split
  · rename_i hband
    simp
    push_neg at hband
    exact hband
  · split
    · rename_i hband _
      push_neg at hband
      simp
      exact hband
    · rename_i hband _
      push_neg at hband
      simp
      exact hband

lemma view_outOfBounds_iff (c : Container) (off len : Nat) (data : List Nat) :
    view c off len data = .error .outOfBounds
      ↔ ((bandLo c ≤ len ∧ len ≤ bandHi c)
          ∧ (data = [] ∨ data.length < (off + len - 1) / 8 + 1)) := by
  rw [view_def]
  split
  · rename_i hband
    simp
    intro h1 h2
    exact absurd ⟨h1, h2⟩ hband
  · split
    · rename_i hband hbound
      push_neg at hband
      simp only [List.isEmpty_eq_true] at hbound
      simp [hband.1, hband.2, hbound]
    · rename_i hband hbound
      push_neg at hband
      simp only [List.isEmpty_eq_true] at hbound
      simp [hband.1, hband.2]
      push_neg at hbound
      exact ⟨fun h => absurd h hbound.1, hbound.2⟩

lemma win_length {data : List Nat} {b e : Nat} (he : e < data.length) :
    ((data.drop b).take (e + 1 - b)).length = e + 1 - b := by
  rw [List.length_take, List.length_drop]
  omega

lemma win_getElem? {data : List Nat} {b e k : Nat} (hk : k < e + 1 - b) :
    ((data.drop b).take (e + 1 - b))[k]? = data[b + k]? := by
  rw [List.getElem?_take_of_lt hk, List.getElem?_drop]

lemma getD_of_getElem? {l : List Nat} {k x : Nat} (h : l[k]? = some x) :
    l.getD k 0 = x := by
  rw [List.getD_eq_getElem?_getD, h]
  rfl

/-! Helper lemmas: the store merges preserve bits outside the field. -/

lemma shiftLeft_lt_pow {v len r n : Nat} (hv : v < 2 ^ len)
    (hn : len + r ≤ n) : v <<< r < 2 ^ n := by
  rw [Nat.shiftLeft_eq]
  have h1 : v * 2 ^ r < 2 ^ len * 2 ^ r :=
    Nat.mul_lt_mul_of_pos_right hv (Nat.two_pow_pos r)
  rw [← pow_add] at h1
  exact lt_of_lt_of_le h1 (Nat.pow_le_pow_right (by norm_num) hn)

lemma storeWide_spec (bw off len : Nat) (window : List Nat) (v : Nat)
    (hv : v < 2 ^ len) (hwl2 : 2 ≤ window.length) (hbw : window.length ≤ bw)
    (hfit : off % 8 + len ≤ 8 * window.length)
    (hlo : 8 * (window.length - 1) < off % 8 + len) :
    ∃ w, storeWide bw off len window v = some w ∧
      w.length = window.length ∧
      (∀ j, j < 8 → j < off % 8 →
        (w.getD 0 0).testBit j = (window.getD 0 0).testBit j) ∧
      (∀ j, j < 8 → off % 8 + len ≤ 8 * (window.length - 1) + j →
        (w.getD (window.length - 1) 0).testBit j
          = (window.getD (window.length - 1) 0).testBit j) := by
  have hr8 : off % 8 < 8 := Nat.mod_lt _ (by norm_num)
  have hX : v <<< (off % 8) < 2 ^ (8 * bw) := shiftLeft_lt_pow hv (by omega)
  have hmod : (v <<< (off % 8)) % 2 ^ (8 * bw) = v <<< (off % 8) :=
    Nat.mod_eq_of_lt hX
  set r := off % 8 with hr
  set wl := window.length with hwl
  set buf := (toLeBytes bw (v <<< r)).take wl with hbufdef
  have hbuflen : buf.length = wl := by
    rw [hbufdef, List.length_take, toLeBytes_length]
    omega
  have hbufb : ∀ k, k < wl → buf.getD k 0 = (v <<< r) / 2 ^ (8 * k) % 256 := by
    intro k hk
    apply getD_of_getElem?
    rw [hbufdef, List.getElem?_take_of_lt hk, toLeBytes_getElem? _ (by omega)]
  have hsplit_buf : splitBytes buf
      = some (buf.getD 0 0, buf.tail.dropLast, buf.getD (wl - 1) 0) := by
    rw [splitBytes_eq_some buf (by omega), hbuflen]
  have hsplit_win : splitBytes window
      = some (window.getD 0 0, window.tail.dropLast, window.getD (wl - 1) 0) := by
    rw [splitBytes_eq_some window (by omega)]
  have hsw : storeWide bw off len window v
      = some (((window.getD 0 0 &&& not8 ((255 <<< r) % 256)) ||| buf.getD 0 0)
          :: (buf.tail.dropLast
            ++ [(window.getD (wl - 1) 0 &&& ((255 <<< ((off + len) % 8)) % 256))
                  ||| buf.getD (wl - 1) 0])) := by
    unfold storeWide
    rw [hmod]
    rw [← hwl, ← hbufdef]
    simp only [hsplit_buf, hsplit_win, ← hr]
  have hmidlen : buf.tail.dropLast.length = wl - 2 := by
    rw [List.length_dropLast, List.length_tail, hbuflen]
    omega
  refine ⟨_, hsw, ?_, ?_, ?_⟩
  · simp [hmidlen]
    omega
  · intro j hj hjr
    rw [List.getD_cons_zero, Nat.testBit_or, Nat.testBit_and,
      not8_testBit _ hj, mh_testBit r hj]
    have h1 : decide (r ≤ j) = false := by
      simp
      omega
    have h2 : (buf.getD 0 0).testBit j = false := by
      rw [hbufb 0 (by omega), byte_testBit _ 0 hj]
      rw [show 8 * 0 + j = j by omega, Nat.testBit_shiftLeft]
      simp [h1]
    rw [h1, h2]
    simp
  · intro j hj hcond
    have hwl1 : wl - 1 = (wl - 2) + 1 := by omega
    rw [hwl1, List.getD_cons_succ, ← hwl1]
    have hlast : (buf.tail.dropLast
        ++ [(window.getD (wl - 1) 0 &&& ((255 <<< ((off + len) % 8)) % 256))
              ||| buf.getD (wl - 1) 0]).getD (wl - 2) 0
        = (window.getD (wl - 1) 0 &&& ((255 <<< ((off + len) % 8)) % 256))
            ||| buf.getD (wl - 1) 0 := by
      apply getD_of_getElem?
      rw [List.getElem?_append_right (by rw [hmidlen])]
      rw [hmidlen]
      simp
    rw [hlast]
    have hs8 : (off + len) % 8 = (r + len) % 8 := by omega
    by_cases hs : (off + len) % 8 = 0
    · omega
    · rw [Nat.testBit_or, Nat.testBit_and, mh_testBit _ hj]
      have h1 : decide ((off + len) % 8 ≤ j) = true := by
        simp
        omega
      have h2 : (buf.getD (wl - 1) 0).testBit j = false := by
        rw [hbufb (wl - 1) (by omega), byte_testBit _ (wl - 1) hj]
        exact Nat.testBit_lt_two_pow (shiftLeft_lt_pow hv (by omega))
      rw [h1, h2]
      simp

lemma storeOne_testBit {x v len r j : Nat} (hv : v < 2 ^ len) (hj : j < 8)
    (hout : j < r ∨ r + len ≤ j) :
    ((x &&& not8 (((2 ^ len - 1) <<< r) % 256)) ||| ((v <<< r) % 256)).testBit j
      = x.testBit j := by
  have h256 : (256 : Nat) = 2 ^ 8 := by norm_num
  have hmfalse : (((2 ^ len - 1) <<< r) % 256).testBit j = false := by
    rw [h256, Nat.testBit_mod_two_pow, Nat.testBit_shiftLeft,
      Nat.testBit_two_pow_sub_one]
    simp
    intro _ hrj
    omega
  have hvfalse : ((v <<< r) % 256).testBit j = false := by
    rw [h256, Nat.testBit_mod_two_pow, Nat.testBit_shiftLeft]
    rcases hout with h | h
    · simp
      intro _ hrj
      omega
    · have hb : v.testBit (j - r) = false :=
        Nat.testBit_lt_two_pow
          (lt_of_lt_of_le hv (Nat.pow_le_pow_right (by norm_num) (by omega)))
      simp [hb]
  rw [Nat.testBit_or, Nat.testBit_and, not8_testBit _ hj, hmfalse, hvfalse]
  simp

lemma storeBodyC_spec (c : Container) (off len val : Nat) (window : List Nat)
    (hlo : bandLo c ≤ len) (hhi : len ≤ bandHi c)
    (hwl : window.length = (off % 8 + len - 1) / 8 + 1) :
    ∃ w, storeBodyC c off len window val = some w ∧
      w.length = window.length ∧
      (∀ j, j < 8 → j < off % 8 →
        (w.getD 0 0).testBit j = (window.getD 0 0).testBit j) ∧
      (∀ j, j < 8 → off % 8 + len ≤ 8 * (window.length - 1) + j →
        (w.getD (window.length - 1) 0).testBit j
          = (window.getD (window.length - 1) 0).testBit j) := by
  have hr8 : off % 8 < 8 := Nat.mod_lt _ (by norm_num)
  cases c with
  | c8 =>
    simp only [bandLo, bandHi] at hlo hhi
    have hm := mask8_eq hhi
    have hv := masked_lt val len
    have hcase : window.length = 1 ∨ window.length = 2 := by omega
    rcases hcase with hL | hL
    · have hbody : storeBodyC Container.c8 off len window val
          = some [(window.getD 0 0
              &&& not8 (((2 ^ len - 1) <<< (off % 8)) % 256))
              ||| (((val &&& (2 ^ len - 1)) <<< (off % 8)) % 256)] := by
        simp [storeBodyC, storeBody8, hL, hm]
      refine ⟨_, hbody, by simp [hL], ?_, ?_⟩
      · intro j hj hjr
        rw [List.getD_cons_zero]
        exact storeOne_testBit hv hj (Or.inl hjr)
      · intro j hj hcond
        have h0 : window.length - 1 = 0 := by omega
        rw [h0] at hcond ⊢
        rw [List.getD_cons_zero]
        exact storeOne_testBit hv hj (Or.inr (by omega))
    · have hbody : storeBodyC Container.c8 off len window val
          = storeWide 2 off len window (val &&& (2 ^ len - 1)) := by
        simp [storeBodyC, storeBody8, hL, hm]
      rw [hbody]
      exact storeWide_spec 2 off len window (val &&& (2 ^ len - 1)) hv
        (by omega) (by omega) (by omega) (by omega)
  | c16 =>
    simp only [bandLo, bandHi] at hlo hhi
    have hm := mask16_eq hhi
    have hv := masked_lt val len
    have hcase : window.length = 2 ∨ window.length = 3 := by omega
    rcases hcase with hL | hL
    · have hbody : storeBodyC Container.c16 off len window val
          = storeWide 2 off len window (val &&& (2 ^ len - 1)) := by
        simp [storeBodyC, storeBody16, hL, hm]
      rw [hbody]
      exact storeWide_spec 2 off len window (val &&& (2 ^ len - 1)) hv
        (by omega) (by omega) (by omega) (by omega)
    · have hbody : storeBodyC Container.c16 off len window val
          = storeWide 4 off len window (val &&& (2 ^ len - 1)) := by
        simp [storeBodyC, storeBody16, hL, hm]
      rw [hbody]
      exact storeWide_spec 4 off len window (val &&& (2 ^ len - 1)) hv
        (by omega) (by omega) (by omega) (by omega)
  | c32 =>
    simp only [bandLo, bandHi] at hlo hhi
    have hm := mask32_eq hhi
    have hv := masked_lt val len
    have hcase : window.length = 3 ∨ window.length = 4 ∨ window.length = 5 := by
      omega
    rcases hcase with hL | hL | hL
    · have hbody : storeBodyC Container.c32 off len window val
          = storeWide 4 off len window (val &&& (2 ^ len - 1)) := by
        simp [storeBodyC, storeBody32, hL, hm]
      rw [hbody]
      exact storeWide_spec 4 off len window (val &&& (2 ^ len - 1)) hv
        (by omega) (by omega) (by omega) (by omega)
    · have hbody : storeBodyC Container.c32 off len window val
          = storeWide 4 off len window (val &&& (2 ^ len - 1)) := by
        simp [storeBodyC, storeBody32, hL, hm]
      rw [hbody]
      exact storeWide_spec 4 off len window (val &&& (2 ^ len - 1)) hv
        (by omega) (by omega) (by omega) (by omega)
    · have hbody : storeBodyC Container.c32 off len window val
          = storeWide 8 off len window (val &&& (2 ^ len - 1)) := by
        simp [storeBodyC, storeBody32, hL, hm]
      rw [hbody]
      exact storeWide_spec 8 off len window (val &&& (2 ^ len - 1)) hv
        (by omega) (by omega) (by omega) (by omega)
  | c64 =>
    simp only [bandLo, bandHi] at hlo hhi
    have hm := mask64_eq hhi
    have hv := masked_lt val len
    have hcase : (5 ≤ window.length ∧ window.length ≤ 8) ∨ window.length = 9 := by
      omega
    rcases hcase with hL | hL
    · have hbody : storeBodyC Container.c64 off len window val
          = storeWide 8 off len window (val &&& (2 ^ len - 1)) := by
        simp only [storeBodyC, storeBody64]
        rw [if_pos hL, hm]
      rw [hbody]
      exact storeWide_spec 8 off len window (val &&& (2 ^ len - 1)) hv
        (by omega) (by omega) (by omega) (by omega)
    · have hbody : storeBodyC Container.c64 off len window val
          = storeWide 16 off len window (val &&& (2 ^ len - 1)) := by
        simp [storeBodyC, storeBody64, hL, hm]
      rw [hbody]
      exact storeWide_spec 16 off len window (val &&& (2 ^ len - 1)) hv
        (by omega) (by omega) (by omega) (by omega)

lemma bandLo_pos (c : Container) : 1 ≤ bandLo c := by
  cases c <;> simp [bandLo]

lemma getD_congr_of_getElem? {l1 l2 : List Nat} {k1 k2 : Nat}
    (hh : l1[k1]? = l2[k2]?) : l1.getD k1 0 = l2.getD k2 0 := by
  rw [List.getD_eq_getElem?_getD, List.getD_eq_getElem?_getD, hh]

lemma storeC_ok_elim {c : Container} {off len val : Nat}
    {data data2 : List Nat} (h : storeC c off len data val = .ok data2) :
    ∃ win w, view c off len data = .ok (off / 8, (off + len - 1) / 8, win) ∧
      storeBodyC c off len win val = some w ∧
      data2 = setWindow data (off / 8) w := by
  unfold storeC at h
  cases hv : view c off len data with
  | error e =>
    rw [hv] at h
    simp at h
  | ok t =>
    obtain ⟨b, e, win⟩ := t
    rw [hv] at h
    dsimp only at h
    obtain ⟨_, _, hb, he, _, _⟩ := view_ok_elim hv
    subst hb
    subst he
    cases hb2 : storeBodyC c off len win val with
    | none =>
      rw [hb2] at h
      simp at h
    | some w =>
      rw [hb2] at h
      simp only [Except.ok.injEq] at h
      exact ⟨win, w, rfl, hb2, h.symm⟩

lemma storeC_frame {c : Container} {off len val : Nat} {data data2 : List Nat}
    (h : storeC c off len data val = .ok data2) :
    data2.length = data.length ∧
    (∀ k, k < off / 8 ∨ (off + len - 1) / 8 < k → data2[k]? = data[k]?) ∧
    (∀ i, i < off ∨ off + len ≤ i → bufBit data2 i = bufBit data i) ∧
    (∀ dB, dB.length = data.length →
      (∀ k, off / 8 ≤ k → k ≤ (off + len - 1) / 8 → dB[k]? = data[k]?) →
      ∃ dB2, storeC c off len dB val = .ok dB2 ∧
        ∀ k, off / 8 ≤ k → k ≤ (off + len - 1) / 8 → dB2[k]? = data2[k]?) := by
  obtain ⟨win, w, hv, hb, hd2⟩ := storeC_ok_elim h
  obtain ⟨hlo, hhi, _, _, he, hwin⟩ := view_ok_elim hv
  set b := off / 8 with hbdef
  set e := (off + len - 1) / 8 with hedef
  have hlen1 : 1 ≤ len := le_trans (bandLo_pos c) hlo
  have hbe : b ≤ e := by omega
  have hwl : win.length = e + 1 - b := by
    rw [hwin]
    exact win_length he
  have hwlr : win.length = (off % 8 + len - 1) / 8 + 1 := by omega
  obtain ⟨w2, hb2, hwlen, hhead, htail⟩ :=
    storeBodyC_spec c off len val win hlo hhi hwlr
  have hww : w = w2 := by
    rw [hb] at hb2
    injection hb2
  subst hww
  have hwinget : ∀ k, k < win.length → win[k]? = data[b + k]? := by
    intro k hk
    rw [hwin]
    exact win_getElem? (by omega)
  have hblen : b ≤ data.length := by omega
  have hwdata : b + w.length ≤ data.length := by omega
  refine ⟨?_, ?_, ?_, ?_⟩
  · rw [hd2]
    exact setWindow_length hwdata
  · intro k hk
    rw [hd2]
    rcases hk with hk | hk
    · exact setWindow_getElem?_lo hblen hk
    · exact setWindow_getElem?_hi hblen (by omega)
  · intro i hi
    have hk8 : i % 8 < 8 := Nat.mod_lt _ (by norm_num)
    have hi8 : i = 8 * (i / 8) + i % 8 := by omega
    have hoff8 : off = 8 * b + off % 8 := by omega
    by_cases hk1 : i / 8 < b
    · simp only [bufBit]
      rw [getD_congr_of_getElem? (hd2 ▸ setWindow_getElem?_lo hblen hk1)]
    · by_cases hk2 : e < i / 8
      · simp only [bufBit]
        rw [getD_congr_of_getElem? (hd2 ▸ setWindow_getElem?_hi hblen (by omega))]
      · push_neg at hk1 hk2
        have hmid : data2.getD (i / 8) 0 = w.getD (i / 8 - b) 0 :=
          getD_congr_of_getElem?
            (hd2 ▸ setWindow_getElem?_mid hblen hk1 (by omega))
        have hwinD : win.getD (i / 8 - b) 0 = data.getD (i / 8) 0 := by
          apply getD_congr_of_getElem?
          rw [hwinget (i / 8 - b) (by omega)]
          congr 1
          omega
        by_cases hkb : i / 8 = b
        · rcases hi with hi | hi
          · have hj : i % 8 < off % 8 := by omega
            have hz : i / 8 - b = 0 := by omega
            have hh := hhead (i % 8) hk8 hj
            rw [hz] at hwinD
            simp only [bufBit]
            rw [hmid, hz, hh, hwinD]
          · have hbee : b = e := by omega
            have hj : off % 8 + len ≤ 8 * (win.length - 1) + i % 8 := by omega
            have hz : i / 8 - b = 0 := by omega
            have hw0 : win.length - 1 = 0 := by omega
            have ht := htail (i % 8) hk8 hj
            rw [hw0] at ht
            rw [hz] at hwinD
            simp only [bufBit]
            rw [hmid, hz, ht, hwinD]
        · by_cases hke : i / 8 = e
          · have hblt : b < e := by omega
            rcases hi with hi | hi
            · omega
            · have hj : off % 8 + len ≤ 8 * (win.length - 1) + i % 8 := by omega
              have hwe : i / 8 - b = win.length - 1 := by omega
              have ht := htail (i % 8) hk8 hj
              rw [← hwe] at ht
              simp only [bufBit]
              rw [hmid, ht, hwinD]
          · omega
  · intro dB hlenB hagree
    have hviewB : view c off len dB = .ok (b, e, win) := by
      rw [view_ok_intro c off len dB hlo hhi (by omega)]
      have hsl : (dB.drop b).take (e + 1 - b) = win := by
        apply List.ext_getElem?
        intro n
        by_cases hn : n < e + 1 - b
        · rw [win_getElem? hn, hwin, win_getElem? hn]
          exact hagree (b + n) (by omega) (by omega)
        · rw [List.getElem?_eq_none, List.getElem?_eq_none]
          · omega
          · rw [List.length_take, List.length_drop]
            omega
      rw [hsl]
    have hstoreB : storeC c off len dB val = .ok (setWindow dB b w) := by
      unfold storeC
      rw [hviewB]
      dsimp only
      rw [hb]
    refine ⟨_, hstoreB, ?_⟩
    intro k hk1 hk2
    rw [hd2, setWindow_getElem?_mid (by omega) hk1 (by omega),
      setWindow_getElem?_mid hblen hk1 (by omega)]

/-! Helper lemmas: load success and error classification. -/

lemma loadBodyC_isSome (c : Container) (off len : Nat) (window : List Nat)
    (hlo : bandLo c ≤ len) (hhi : len ≤ bandHi c)
    (hwl : window.length = (off % 8 + len - 1) / 8 + 1) :
    (loadBodyC c off len window).isSome = true := by
  have hr8 : off % 8 < 8 := Nat.mod_lt _ (by norm_num)
  cases c with
  | c8 =>
    simp only [bandLo, bandHi] at hlo hhi
    have hcase : window.length = 1 ∨ window.length = 2 := by omega
    rcases hcase with hL | hL <;> simp [loadBodyC, loadBody8, hL]
  | c16 =>
    simp only [bandLo, bandHi] at hlo hhi
    have hcase : window.length = 2 ∨ window.length = 3 := by omega
    rcases hcase with hL | hL <;> simp [loadBodyC, loadBody16, hL]
  | c32 =>
    simp only [bandLo, bandHi] at hlo hhi
    have hcase : window.length = 3 ∨ window.length = 4 ∨ window.length = 5 := by
      omega
    rcases hcase with hL | hL | hL <;> simp [loadBodyC, loadBody32, hL]
  | c64 =>
    simp only [bandLo, bandHi] at hlo hhi
    have hcase : window.length = 5 ∨ window.length = 6 ∨ window.length = 7
        ∨ window.length = 8 ∨ window.length = 9 := by omega
    rcases hcase with hL | hL | hL | hL | hL <;>
      simp [loadBodyC, loadBody64, hL]

lemma loadC_classify (c : Container) (off len : Nat) (data : List Nat) :
    (loadC c off len data = .error .invalidWidth
        ↔ ¬ (bandLo c ≤ len ∧ len ≤ bandHi c)) ∧
    (loadC c off len data = .error .outOfBounds
        ↔ ((bandLo c ≤ len ∧ len ≤ bandHi c)
            ∧ (data = [] ∨ data.length < (off + len - 1) / 8 + 1))) ∧
    (isOkE (loadC c off len data) = true
        ↔ ((bandLo c ≤ len ∧ len ≤ bandHi c)
            ∧ (off + len - 1) / 8 < data.length)) := by
  by_cases hband : bandLo c ≤ len ∧ len ≤ bandHi c
  · by_cases hbound : (off + len - 1) / 8 < data.length
    · have hv := view_ok_intro c off len data hband.1 hband.2 hbound
      have hlen1 : 1 ≤ len := le_trans (bandLo_pos c) hband.1
      have hwl : ((data.drop (off / 8)).take
          ((off + len - 1) / 8 + 1 - off / 8)).length
          = (off % 8 + len - 1) / 8 + 1 := by
        rw [win_length hbound]
        omega
      obtain ⟨v, hbody⟩ := Option.isSome_iff_exists.mp
        (loadBodyC_isSome c off len _ hband.1 hband.2 hwl)
      have hok : loadC c off len data = .ok v := by
        unfold loadC
        rw [hv]
        dsimp only
        rw [hbody]
      have hne : data ≠ [] := by
        intro hc
        subst hc
        simp at hbound
      rw [hok]
      refine ⟨by simp [hband], by simp [hband, hne]; omega, ?_⟩
      simp [isOkE, hband, hbound]
    · have hv : view c off len data = .error .outOfBounds := by
        rw [view_outOfBounds_iff]
        exact ⟨hband, Or.inr (by omega)⟩
      have hload : loadC c off len data = .error .outOfBounds := by
        unfold loadC
        rw [hv]
      rw [hload]
      refine ⟨by simp [hband], by simp [hband]; omega, ?_⟩
      simp [isOkE]
      omega
  · have hv : view c off len data = .error .invalidWidth :=
      (view_invalidWidth_iff c off len data).mpr hband
    have hload : loadC c off len data = .error .invalidWidth := by
      unfold loadC
      rw [hv]
    rw [hload]
    refine ⟨by simp [hband], by simp [hband], ?_⟩
    simp [isOkE]
    intro h1 h2
    exact absurd ⟨h1, h2⟩ hband

/-! Helper lemmas: the generated layout. -/

/-! Helper lemmas: the generated layout. -/

lemma offsetTable_cons (w : Nat) (ws : List Nat) :
    offsetTable (w :: ws) = 0 :: (offsetTable ws).map (fun s => w + s) := by
  simp [offsetTable, offsetLists, List.map_map, Function.comp]

lemma offsetTable_length (ws : List Nat) :
    (offsetTable ws).length = ws.length := by
  induction ws with
  | nil => rfl
  | cons w rest ih => simp [offsetTable_cons, ih]

lemma offsetTable_getElem? (ws : List Nat) (i : Nat) (h : i < ws.length) :
    (offsetTable ws)[i]? = some ((ws.take i).sum) := by
  induction ws generalizing i with
  | nil => simp at h
  | cons w rest ih =>
    cases i with
    | zero => simp [offsetTable_cons]
    | succ i =>
      have hi : i < rest.length := by simpa using h
      rw [offsetTable_cons, List.getElem?_cons_succ, List.getElem?_map, ih i hi]
      simp [List.take_succ_cons]

lemma bitfieldDataLen_eq (ws : List Nat) (h : 1 ≤ ws.sum) :
    bitfieldDataLen ws = (ws.sum + 7) / 8 := by
  rw [bitfieldDataLen, shiftRight3_eq]
  omega

/-! Helper lemmas: the enum derivation. -/

lemma foldr_max_comm (l : List Nat) (a b : Nat) :
    l.foldr Nat.max (Nat.max a b) = Nat.max a (l.foldr Nat.max b) := by
  induction l with
  | nil => rfl
  | cons c rest ih =>
    simp only [List.foldr_cons, ih]
    exact max_left_comm c a _

lemma foldMax_some (m : Nat) (l : List Nat) :
    foldMax (some m) l = some (l.foldr Nat.max m) := by
  induction l generalizing m with
  | nil => rfl
  | cons a rest ih =>
    rw [foldMax, ih]
    congr 1
    have h1 : Nat.max a m = Nat.max a m := rfl
    calc rest.foldr Nat.max (Nat.max a m)
        = Nat.max a (rest.foldr Nat.max m) := foldr_max_comm rest a m
      _ = (a :: rest).foldr Nat.max m := by simp

lemma foldMax_none (l : List Nat) (h : l ≠ []) :
    foldMax none l = some (l.foldr Nat.max 0) := by
  match l with
  | a :: rest =>
    rw [foldMax, foldMax_some]
    congr 1
    have h2 := foldr_max_comm rest a 0
    have h3 : Nat.max a 0 = a := by simp
    rw [h3] at h2
    rw [h2]
    simp

lemma allLits_map_lit (ds : List Nat) :
    allLits (ds.map (fun d => ⟨some (.lit d)⟩)) = ds := by
  induction ds with
  | nil => rfl
  | cons d rest ih => simp [allLits, variantLits, litsOf, ih]

lemma foldr_max_lt {ds : List Nat} {bound : Nat} (hb : 0 < bound)
    (h : ∀ d ∈ ds, d < bound) : ds.foldr Nat.max 0 < bound := by
  induction ds with
  | nil => simpa
  | cons d rest ih =>
    simp only [List.foldr_cons]
    have h1 := h d (by simp)
    have h2 := ih (fun x hx => h x (by simp [hx]))
    exact Nat.max_lt.mpr ⟨h1, h2⟩

lemma bitlenAux_le (fuel n k : Nat) (hf : n ≤ fuel) (h : n < 2 ^ k) :
    bitlenAux fuel n ≤ k := by
  induction fuel generalizing n k with
  | zero => simp [bitlenAux]
  | succ fuel ih =>
    rw [bitlenAux]
    by_cases hn : n = 0
    · simp [hn]
    · rw [if_neg hn]
      have hk1 : 1 ≤ k := by
        by_contra hk
        push_neg at hk
        have hz : k = 0 := by omega
        subst hz
        simp at h
        omega
      have hp : 2 * 2 ^ (k - 1) = 2 ^ k := by
        rw [← pow_succ']
        congr 1
        omega
      have := ih (n / 2) (k - 1) (by omega) (by omega)
      omega

lemma bitlen_le {n k : Nat} (h : n < 2 ^ k) : bitlen n ≤ k :=
  bitlenAux_le n n k le_rfl h

lemma detectbits_eq (vs : List RVariant)
    (hlt : ∀ n ∈ allLits vs, n < 2 ^ 64) (hne : allLits vs ≠ []) :
    detectbits vs
      = .ok (Nat.max (bitlen ((allLits vs).foldr Nat.max 0)) 1) := by
  unfold detectbits
  have hany : (allLits vs).any (fun n => 2 ^ 64 ≤ n) = false := by
    rw [List.any_eq_false]
    intro x hx
    have hx2 := hlt x hx
    norm_num at hx2
    simp
    exact hx2
  rw [if_neg (by rw [hany]; simp), foldMax_none _ hne]

lemma decodeFrom_lit_found (ds : List Nat) (k raw i : Nat) (hd : ds.Nodup)
    (hi : i < ds.length) (hraw : ds.getD i 0 = raw) :
    decodeFrom (ds.map (fun d => ⟨some (.lit d)⟩)) k raw = some (k + i) := by
  induction ds generalizing k i with
  | nil => simp at hi
  | cons d rest ih =>
    simp only [List.map_cons, decodeFrom, evalD]
    by_cases hdr : d = raw
    · cases i with
      | zero => simp [hdr]
      | succ i =>
        exfalso
        have hir : i < rest.length := by simpa using hi
        have hmem : raw ∈ rest := by
          apply List.getElem?_mem (n := i)
          rw [List.getD_cons_succ, List.getD_eq_getElem?_getD,
            List.getElem?_eq_getElem hir] at hraw
          rw [List.getElem?_eq_getElem hir]
          simpa using hraw
        exact (List.nodup_cons.mp hd).1 (hdr ▸ hmem)
    · rw [if_neg hdr]
      cases i with
      | zero =>
        rw [List.getD_cons_zero] at hraw
        exact absurd hraw hdr
      | succ i =>
        rw [show k + (i + 1) = (k + 1) + i by ring]
        exact ih (k + 1) i (List.nodup_cons.mp hd).2 (by simpa using hi)
          (by simpa using hraw)

lemma decodeFrom_lit_none (ds : List Nat) (k raw : Nat)
    (h : ∀ d ∈ ds, d ≠ raw) :
    decodeFrom (ds.map (fun d => ⟨some (.lit d)⟩)) k raw = none := by
  induction ds generalizing k with
  | nil => rfl
  | cons d rest ih =>
    simp only [List.map_cons, decodeFrom, evalD]
    rw [if_neg (h d (by simp))]
    exact ih (k + 1) (fun x hx => h x (by simp [hx]))

lemma getD_mem_of_lt {l : List Nat} {i : Nat} (h : i < l.length) :
    l.getD i 0 ∈ l := by
  have h1 : l[i]? = some l[i] := List.getElem?_eq_getElem h
  have h2 : l.getD i 0 = l[i] := by
    rw [List.getD_eq_getElem?_getD, h1]
    rfl
  rw [h2]
  exact List.getElem_mem h

lemma genDerive_ok_elim {vs : List RVariant} {s : SpecifierImpl}
    (h : genDerive vs = .ok s) :
    ∃ bits, detectbits vs = .ok bits ∧ bits ≤ 64 ∧ s.bits = bits ∧
      (∀ i, s.encode i = (vs[i]?).bind (fun v => v.disc.map evalD)) ∧
      (∀ raw, s.decode raw = decodeFrom vs 0 raw) := by
  unfold genDerive at h
  split at h
  · simp at h
  · cases hdet : detectbits vs with
    | error e =>
      rw [hdet] at h
      simp at h
    | ok bits =>
      rw [hdet] at h
      dsimp only at h
      split at h
      · rename_i hb64
        simp only [Except.ok.injEq] at h
        subst h
        exact ⟨bits, rfl, hb64, rfl, fun i => rfl, fun raw => rfl⟩
      · simp at h

lemma specStore_frame_of_storeC {c : Container} {bits off val : Nat}
    {data data2 : List Nat}
    (hdisp : ∀ dB : List Nat,
      specStore bits off dB val = storeC c off bits dB val)
    (h : specStore bits off data val = .ok data2) :
    data2.length = data.length ∧
    (∀ i, i < off ∨ off + bits ≤ i → bufBit data2 i = bufBit data i) ∧
    (∀ k, k < off / 8 ∨ (off + bits - 1) / 8 < k → data2[k]? = data[k]?) ∧
    (∀ dB, dB.length = data.length →
      (∀ k, off / 8 ≤ k → k ≤ (off + bits - 1) / 8 → dB[k]? = data[k]?) →
      ∃ dB2, specStore bits off dB val = .ok dB2 ∧
        ∀ k, off / 8 ≤ k → k ≤ (off + bits - 1) / 8 → dB2[k]? = data2[k]?) := by
  rw [hdisp data] at h
  obtain ⟨hlen, hbytes, hbitsF, hread⟩ := storeC_frame h
  refine ⟨hlen, hbitsF, hbytes, ?_⟩
  intro dB h1 h2
  obtain ⟨dB2, hst, heq⟩ := hread dB h1 h2
  refine ⟨dB2, ?_, heq⟩
  rw [hdisp dB]
  exact hst

/-! The claims. -/

/-- C1: the round-trip property fails on the code. Storing value 0 in a
16-bit field at offset 0 over the buffer [0xFF, 0xFF] leaves the tail byte
set (the tail keep-mask `0xFF << ((off+len) % 8)` degenerates to `0xFF` when
`off + len` is a multiple of 8), so the subsequent load returns 0xFF00
instead of the stored 0. -/
theorem c1_roundtrip_code_bug :
    specStore 16 0 [255, 255] 0 = .ok [0, 255] ∧
    specLoad 16 0 [0, 255] = .ok 65280 ∧ (65280 : Nat) ≠ 0 :=
  ⟨rfl, rfl, by norm_num⟩

/-- C2: a successful `Specifier::set` (store through the container whose band
contains the width) keeps the buffer length, leaves every bit outside
`[off, off + bits)` unchanged, leaves every byte outside the window
`[off/8, (off+bits-1)/8]` unchanged, and neither reads nor writes bytes
outside the window: on any same-length buffer agreeing on the window it
succeeds and produces the same window bytes. -/
theorem c2_store_frame (bits off val : Nat) (data data2 : List Nat)
    (hb1 : 1 ≤ bits) (hb2 : bits ≤ 64)
    (h : specStore bits off data val = .ok data2) :
    data2.length = data.length ∧
    (∀ i, i < off ∨ off + bits ≤ i → bufBit data2 i = bufBit data i) ∧
    (∀ k, k < off / 8 ∨ (off + bits - 1) / 8 < k → data2[k]? = data[k]?) ∧
    (∀ dB, dB.length = data.length →
      (∀ k, off / 8 ≤ k → k ≤ (off + bits - 1) / 8 → dB[k]? = data[k]?) →
      ∃ dB2, specStore bits off dB val = .ok dB2 ∧
        ∀ k, off / 8 ≤ k → k ≤ (off + bits - 1) / 8 → dB2[k]? = data2[k]?) := by
  by_cases h8 : bits ≤ 8
  · exact specStore_frame_of_storeC
      (fun dB => by unfold specStore; rw [if_pos h8]) h
  · by_cases h16 : bits ≤ 16
    · exact specStore_frame_of_storeC
        (fun dB => by unfold specStore; rw [if_neg h8, if_pos h16]) h
    · by_cases h32 : bits ≤ 32
      · exact specStore_frame_of_storeC
          (fun dB => by
            unfold specStore
            rw [if_neg h8, if_neg h16, if_pos h32]) h
      · exact specStore_frame_of_storeC
          (fun dB => by
            unfold specStore
            rw [if_neg h8, if_neg h16, if_neg h32, if_pos (by omega)]) h

/-- Witness for C2 at a concrete 9-bit store crossing a byte boundary. -/
theorem c2_store_frame_witness :
    specStore 9 4 [255, 255, 255] 0 = .ok [15, 224, 255] ∧
    bufBit [15, 224, 255] 2 = bufBit [255, 255, 255] 2 ∧
    bufBit [15, 224, 255] 14 = bufBit [255, 255, 255] 14 := by
  have hfr := c2_store_frame 9 4 0 [255, 255, 255] [15, 224, 255]
    (by norm_num) (by norm_num) rfl
  exact ⟨rfl, hfr.2.1 2 (Or.inl (by norm_num)),
    hfr.2.1 14 (Or.inr (by norm_num))⟩

/-- C4: when the store validation fails (width outside the container's band,
empty buffer, or window end past the last byte), the store raises the
corresponding panic and produces no mutated buffer: the result is never an
`ok`, so the caller's buffer is byte-for-byte unchanged. -/
theorem c4_failing_store_no_mutation (c : Container) (off len val : Nat)
    (data : List Nat)
    (hfail : len < bandLo c ∨ bandHi c < len ∨ data = []
      ∨ data.length < (off + len - 1) / 8 + 1) :
    isOkE (storeC c off len data val) = false ∧
    (∀ data2, storeC c off len data val ≠ .ok data2) ∧
    (storeC c off len data val = .error .invalidWidth
      ∨ storeC c off len data val = .error .outOfBounds) := by
  by_cases hband : bandLo c ≤ len ∧ len ≤ bandHi c
  · have hv : view c off len data = .error .outOfBounds := by
      rw [view_outOfBounds_iff]
      refine ⟨hband, ?_⟩
      rcases hfail with hB | hB | hB | hB
      · omega
      · omega
      · exact Or.inl hB
      · exact Or.inr hB
    have hst : storeC c off len data val = .error .outOfBounds := by
      unfold storeC
      rw [hv]
    rw [hst]
    refine ⟨rfl, ?_, Or.inr rfl⟩
    intro d2 hc
    simp at hc
  · have hv : view c off len data = .error .invalidWidth :=
      (view_invalidWidth_iff c off len data).mpr hband
    have hst : storeC c off len data val = .error .invalidWidth := by
      unfold storeC
      rw [hv]
    rw [hst]
    refine ⟨rfl, ?_, Or.inl rfl⟩
    intro d2 hc
    simp at hc

/-- Witness for C4: a 9-bit store through the u8 container fails and mutates
nothing. -/
theorem c4_failing_store_no_mutation_witness :
    isOkE (storeC Container.c8 0 9 [0] 0) = false ∧
    (∀ data2, storeC Container.c8 0 9 [0] 0 ≠ .ok data2) ∧
    (storeC Container.c8 0 9 [0] 0 = .error .invalidWidth
      ∨ storeC Container.c8 0 9 [0] 0 = .error .outOfBounds) :=
  c4_failing_store_no_mutation Container.c8 0 9 0 [0]
    (Or.inr (Or.inl (by norm_num [bandHi])))

/-- C5 counterexample: when the width is outside the band AND the buffer is
empty, the code raises the width panic (the band is checked first), so
"fails with OutOfBounds exactly when the buffer is empty or the window end
exceeds the last index" is false as stated. -/
theorem c5_error_priority_counterexample :
    loadC Container.c8 0 9 [] = .error .invalidWidth ∧
    loadC Container.c8 0 9 [] ≠ .error .outOfBounds := by
  constructor
  · rfl
  · intro hc
    have h1 : loadC Container.c8 0 9 [] = .error .invalidWidth := rfl
    rw [h1] at hc
    simp at hc

/-- C5 (amended): load fails with InvalidWidth exactly when the width is
outside the container's band; it fails with OutOfBounds exactly when the
width is in band and the buffer is empty or `(off+len-1)/8` exceeds the last
valid byte index; it succeeds exactly otherwise (the band check has
priority). -/
theorem c5_load_error_classification (c : Container) (off len : Nat)
    (data : List Nat) :
    (loadC c off len data = .error .invalidWidth
        ↔ ¬ (bandLo c ≤ len ∧ len ≤ bandHi c)) ∧
    (loadC c off len data = .error .outOfBounds
        ↔ ((bandLo c ≤ len ∧ len ≤ bandHi c)
            ∧ (data = [] ∨ data.length < (off + len - 1) / 8 + 1))) ∧
    (isOkE (loadC c off len data) = true
        ↔ ((bandLo c ≤ len ∧ len ≤ bandHi c)
            ∧ (off + len - 1) / 8 < data.length)) :=
  loadC_classify c off len data

/-- C8: packing a = 5 (3 bits at offset 0), b = 9 (4 bits at offset 3) and
c = 1 (1 bit at offset 7) into a zeroed one-byte buffer yields 0xCD in every
one of the six setter orders, and the getters read 5, 9, 1 back. -/
theorem c8_packed_byte_scenario :
    ((specStore 3 0 [0] 5 >>= fun d => specStore 4 3 d 9) >>= fun d =>
        specStore 1 7 d 1) = .ok [0xCD] ∧
    ((specStore 3 0 [0] 5 >>= fun d => specStore 1 7 d 1) >>= fun d =>
        specStore 4 3 d 9) = .ok [0xCD] ∧
    ((specStore 4 3 [0] 9 >>= fun d => specStore 3 0 d 5) >>= fun d =>
        specStore 1 7 d 1) = .ok [0xCD] ∧
    ((specStore 4 3 [0] 9 >>= fun d => specStore 1 7 d 1) >>= fun d =>
        specStore 3 0 d 5) = .ok [0xCD] ∧
    ((specStore 1 7 [0] 1 >>= fun d => specStore 3 0 d 5) >>= fun d =>
        specStore 4 3 d 9) = .ok [0xCD] ∧
    ((specStore 1 7 [0] 1 >>= fun d => specStore 4 3 d 9) >>= fun d =>
        specStore 3 0 d 5) = .ok [0xCD] ∧
    specLoad 3 0 [0xCD] = .ok 5 ∧ specLoad 4 3 [0xCD] = .ok 9 ∧
    specLoad 1 7 [0xCD] = .ok 1 :=
  ⟨rfl, rfl, rfl, rfl, rfl, rfl, rfl, rfl, rfl⟩

/-- C9: a total bit width that is not a multiple of 8 makes the generated
trait-gate parameter nonzero, so the type is rejected at definition time;
and accessor success is classified purely by width band and window bounds —
no accessor consults the total size. -/
theorem c9_layout_check_at_definition_time (ws : List Nat)
    (h : ws.sum % 8 ≠ 0) :
    layoutAccepted ws = false ∧
    (∀ (c : Container) (off len : Nat) (data : List Nat),
      isOkE (loadC c off len data) = true
        ↔ ((bandLo c ≤ len ∧ len ≤ bandHi c)
            ∧ (off + len - 1) / 8 < data.length)) := by
  refine ⟨?_, fun c off len data => (loadC_classify c off len data).2.2⟩
  simp [layoutAccepted, totalSizeModEightParam]
  exact h

/-- Witness for C9: a single 3-bit field totals 3 bits and is rejected,
while the 3-bit accessor itself succeeds on a 1-byte buffer. -/
theorem c9_layout_check_at_definition_time_witness :
    ([3] : List Nat).sum % 8 ≠ 0 ∧ layoutAccepted [3] = false ∧
    (isOkE (loadC Container.c8 0 3 [205]) = true
      ↔ ((bandLo Container.c8 ≤ 3 ∧ 3 ≤ bandHi Container.c8)
          ∧ (0 + 3 - 1) / 8 < ([205] : List Nat).length)) := by
  have hth := c9_layout_check_at_definition_time [3] (by decide)
  exact ⟨by decide, hth.1, hth.2 Container.c8 0 3 [205]⟩

/-- C3 counterexample: a 4-variant enum without discriminants is rejected
with the needs-discriminant error — the derivation has no variant-count rule
and never yields BITS = 2 for it (and the 3-variant enum fails with the same
error, not with an invalid-variant-count error). -/
theorem c3_variant_count_counterexample :
    genDerive (List.replicate 4 ⟨none⟩) = .error .needsDiscriminant ∧
    isOkE (genDerive (List.replicate 4 ⟨none⟩)) = false ∧
    genDerive (List.replicate 3 ⟨none⟩) = .error .needsDiscriminant :=
  ⟨rfl, rfl, rfl⟩

/-- C3 (amended): every enum containing a variant without an explicit
discriminant — in particular every enum with no discriminants at all,
whatever its variant count — is rejected with the needs-discriminant error. -/
theorem c3_needs_discriminant (vs : List RVariant)
    (h : (vs.any fun v => v.disc.isNone) = true) :
    genDerive vs = .error .needsDiscriminant := by
  unfold genDerive
  rw [if_pos h]

/-- Witness for C3 at the four-variant discriminant-less enum. -/
theorem c3_needs_discriminant_witness :
    ((List.replicate 4 (⟨none⟩ : RVariant)).any fun v => v.disc.isNone)
        = true ∧
    genDerive (List.replicate 4 ⟨none⟩) = .error .needsDiscriminant :=
  ⟨by decide, c3_needs_discriminant _ (by decide)⟩

/-- C6: the generated OFFSET table assigns each field the sum of the widths
before it (contiguous, strictly increasing when widths are positive), and
the generated buffer size is the byte ceiling of the total width. -/
theorem c6_layout_contiguity (ws : List Nat) (hne : ws ≠ [])
    (hpos : ∀ w ∈ ws, 1 ≤ w) :
    (∀ i, i < ws.length → (offsetTable ws).getD i 0 = (ws.take i).sum) ∧
    (∀ i, i + 1 < ws.length →
      (offsetTable ws).getD (i + 1) 0
          = (offsetTable ws).getD i 0 + ws.getD i 0 ∧
      (offsetTable ws).getD i 0 < (offsetTable ws).getD (i + 1) 0) ∧
    bitfieldDataLen ws = (ws.sum + 7) / 8 := by
  have hg : ∀ i, i < ws.length →
      (offsetTable ws).getD i 0 = (ws.take i).sum :=
    fun i hi => getD_of_getElem? (offsetTable_getElem? ws i hi)
  refine ⟨hg, ?_, ?_⟩
  · intro i hi
    have h1 := hg i (by omega)
    have h2 := hg (i + 1) hi
    have hilen : i < ws.length := by omega
    have hgd : ws.getD i 0 = ws[i] := by
      rw [List.getD_eq_getElem?_getD, List.getElem?_eq_getElem hilen]
      rfl
    have htake : (ws.take (i + 1)).sum = (ws.take i).sum + ws[i] :=
      List.sum_take_succ ws i hilen
    have hw : 1 ≤ ws.getD i 0 := hpos _ (getD_mem_of_lt hilen)
    have hw2 : 1 ≤ ws[i] := hgd ▸ hw
    constructor
    · rw [h1, h2, hgd, htake]
    · rw [h1, h2, htake]
      omega
  · have hsum : 1 ≤ ws.sum := by
      match ws, hne with
      | w :: rest, _ =>
        have := hpos w (by simp)
        simp only [List.sum_cons]
        omega
    exact bitfieldDataLen_eq ws hsum

/-- Witness for C6 on the widths 3, 4, 1. -/
theorem c6_layout_contiguity_witness :
    (offsetTable [3, 4, 1]).getD 1 0 = ([3, 4, 1].take 1).sum ∧
    (offsetTable [3, 4, 1]).getD 2 0 = ([3, 4, 1].take 2).sum ∧
    bitfieldDataLen [3, 4, 1] = (([3, 4, 1] : List Nat).sum + 7) / 8 := by
  have h := c6_layout_contiguity [3, 4, 1] (by simp) (by decide)
  exact ⟨h.1 1 (by norm_num), h.1 2 (by norm_num), h.2.2⟩

/-- C7: on an enum whose variants all carry distinct literal discriminants,
the derived BITS is the bit length of the maximum discriminant (at least 1),
encode yields the variant's own discriminant, decode yields the variant
whose discriminant matches and fails on unassigned code points. -/
theorem c7_discriminant_rule (ds : List Nat) (s : SpecifierImpl)
    (hne : ds ≠ []) (hnd : ds.Nodup) (hlt : ∀ d ∈ ds, d < 2 ^ 64)
    (h : genDerive (ds.map (fun d => ⟨some (.lit d)⟩)) = .ok s) :
    s.bits = Nat.max (bitlen (ds.foldr Nat.max 0)) 1 ∧
    (∀ i, i < ds.length → s.encode i = some (ds.getD i 0)) ∧
    (∀ i raw, i < ds.length → ds.getD i 0 = raw → s.decode raw = some i) ∧
    (∀ raw, (∀ d ∈ ds, d ≠ raw) → s.decode raw = none) := by
  obtain ⟨bits, hdet, hb64, hbits, henc, hdec⟩ := genDerive_ok_elim h
  have hall := allLits_map_lit ds
  have hdet2 := detectbits_eq (ds.map (fun d => ⟨some (.lit d)⟩))
    (by rw [hall]; exact hlt) (by rw [hall]; exact hne)
  rw [hall] at hdet2
  rw [hdet2] at hdet
  simp only [Except.ok.injEq] at hdet
  refine ⟨by rw [hbits, ← hdet], ?_, ?_, ?_⟩
  · intro i hi
    have himap : i < (ds.map (fun d => (⟨some (.lit d)⟩ : RVariant))).length := by
      simpa using hi
    rw [henc i, List.getElem?_map, List.getElem?_eq_getElem hi,
      List.getD_eq_getElem?_getD, List.getElem?_eq_getElem hi]
    rfl
  · intro i raw hi hraw
    rw [hdec raw, decodeFrom_lit_found ds 0 raw i hnd hi hraw]
    norm_num
  · intro raw hnone
    rw [hdec raw]
    exact decodeFrom_lit_none ds 0 raw hnone

/-- The Specifier produced by the derivation on discriminants 0, 1, 5. -/
def c7spec : SpecifierImpl :=
  { bits := 3
  , encode := fun i =>
      ((([0, 1, 5] : List Nat).map
        (fun d => (⟨some (.lit d)⟩ : RVariant)))[i]?).bind
        (fun v => v.disc.map evalD)
  , decode := fun raw =>
      decodeFrom (([0, 1, 5] : List Nat).map (fun d => ⟨some (.lit d)⟩)) 0 raw }

/-- Witness for C7 on discriminants 0, 1, 5: BITS is 3, encoding variant 2
gives 5, decoding 5 gives variant 2, decoding 3 fails. -/
theorem c7_discriminant_rule_witness :
    genDerive (([0, 1, 5] : List Nat).map (fun d => ⟨some (.lit d)⟩))
        = .ok c7spec ∧
    c7spec.bits = 3 ∧ c7spec.encode 2 = some 5 ∧ c7spec.decode 5 = some 2 ∧
    c7spec.decode 3 = none := by
  have h := c7_discriminant_rule [0, 1, 5] c7spec (by simp) (by decide)
    (by decide) rfl
  refine ⟨rfl, ?_, ?_, ?_, ?_⟩
  · exact h.1.trans (by decide)
  · exact (h.2.1 2 (by norm_num)).trans (by decide)
  · exact h.2.2.1 2 5 (by norm_num) (by decide)
  · exact h.2.2.2 3 (by decide)

/-- C10: the derived BITS is computed from the maximum base-10 literal
syntactically occurring in the variant list — not from evaluated
discriminant values. -/
theorem c10_bits_from_syntactic_literals (vs : List RVariant)
    (s : SpecifierImpl) (h : genDerive vs = .ok s) :
    s.bits = Nat.max (bitlen ((allLits vs).foldr Nat.max 0)) 1 := by
  obtain ⟨bits, hdet, hb64, hbits, _, _⟩ := genDerive_ok_elim h
  unfold detectbits at hdet
  split at hdet
  · simp at hdet
  · cases hfm : foldMax none (allLits vs) with
    | none =>
      rw [hfm] at hdet
      simp at hdet
    | some m =>
      rw [hfm] at hdet
      simp only [Except.ok.injEq] at hdet
      have hne : allLits vs ≠ [] := by
        intro hc
        rw [hc] at hfm
        simp [foldMax] at hfm
      rw [foldMax_none _ hne] at hfm
      simp only [Option.some.injEq] at hfm
      rw [hbits, ← hdet, hfm]

/-- A one-variant enum whose discriminant is the expression `1 << 3`. -/
def c10ex : List RVariant := [⟨some (.shl (.lit 1) (.lit 3))⟩]

/-- The Specifier produced by the derivation on `c10ex`. -/
def c10spec : SpecifierImpl :=
  { bits := 2
  , encode := fun i => (c10ex[i]?).bind (fun v => v.disc.map evalD)
  , decode := fun raw => decodeFrom c10ex 0 raw }

/-- Witness for C10: the discriminant `1 << 3` contributes the literals 1
and 3, so BITS is 2, although the evaluated value 8 would need 4 bits. -/
theorem c10_bits_from_syntactic_literals_witness :
    genDerive c10ex = .ok c10spec ∧
    c10spec.bits = Nat.max (bitlen ((allLits c10ex).foldr Nat.max 0)) 1 ∧
    c10spec.bits = 2 ∧ bitlen (evalD (.shl (.lit 1) (.lit 3))) = 4 :=
  ⟨rfl, c10_bits_from_syntactic_literals c10ex c10spec rfl, by decide,
    by decide⟩
